import Mathlib

/-!
# Verification of the bAbI preprocessing pipeline (`prep_datasets.py`)

A shallow embedding of the pure core of `prep_datasets.py`:
`tokenize`, `parse_stories`, `get_tokenizer`, `tokenize_stories`,
the shape-maximum computation of `main`, and `pad_stories`.

The script targets Python 2 / pre-3.7 regex semantics: in
`re.split` a pattern match of width zero does not split, so
splitting on the compiled pattern of one-or-more non-word characters
(wrapped in a capturing group) interleaves the maximal word-character
runs with the captured non-word runs.  Each fragment is then
whitespace-stripped and kept when non-empty.  Byte strings are decoded
before use, which is the identity on the character sequences modelled
here; list indexing follows Python semantics (negative indices count
from the end); `int(...)` accepts an optionally signed decimal numeral
surrounded by whitespace.
-/

set_option maxRecDepth 8000

/-- ASCII word character: alphanumeric or underscore (the regex word class
without the UNICODE flag). -/
def isWordChar (c : Char) : Bool := c.isAlphanum || c == '_'

/-- The characters stripped by Python `str.strip()`. -/
def isPySpace (c : Char) : Bool :=
  c == ' ' || c == '\t' || c == '\n' || c == '\r' || c == '\x0b' || c == '\x0c'

/-- Model of `str.strip()`: drop leading and trailing whitespace. -/
def pyStripList (l : List Char) : List Char :=
  ((l.dropWhile isPySpace).reverse.dropWhile isPySpace).reverse

/-- Group a character list into maximal runs of characters agreeing on a
Boolean classifier.  With `isWordChar` this reproduces what
`re.split` (with the delimiter captured) returns once empty fragments
are discarded: word runs and non-word runs, in order. -/
def groupClass (f : Char → Bool) : List Char → List (List Char)
  | [] => []
  | c :: cs =>
    match groupClass f cs with
    | [] => [[c]]
    | [] :: rs => [c] :: rs
    | (d :: r) :: rs =>
      if f c == f d then (c :: d :: r) :: rs else [c] :: (d :: r) :: rs

/-- The runs produced by splitting on maximal non-word-character groups. -/
def splitRuns (l : List Char) : List (List Char) := groupClass isWordChar l

/-- Model of `tokenize` of the source on character lists: split on the non-word
pattern, strip every fragment, keep the non-empty ones. -/
def tokenizeCore (l : List Char) : List (List Char) :=
  (splitRuns l).filterMap (fun r =>
    let t := pyStripList r
    if t.isEmpty then none else some t)

abbrev Token := String
abbrev Sentence := List Token

/-- Model of `tokenize` on character lists, producing string tokens. -/
def tokenizeL (l : List Char) : List Token :=
  (tokenizeCore l).map String.mk

/-- Model of `tokenize(sentence)` from the source. -/
def tokenize (s : String) : List Token := tokenizeL s.data

/-- Model of `PAD_TOKEN = '_PAD'` from the source. -/
def PAD_TOKEN : Token := "_PAD"

/-- Model of `PAD_ID = 0` from the source. -/
def PAD_ID : Nat := 0

-- § Story parsing -----------------------------------------------------------

/-- A raw example `(substory, query, answer)` as emitted by `parse_stories`. -/
structure Example where
  story : List Sentence
  query : Sentence
  answer : Token
deriving DecidableEq, Repr

/-- Model of `line.split(' ', 1)`: the text before the first space and the text after
it; `none` when the line holds no space (the unpacking raises). -/
def splitOnce : List Char → Option (List Char × List Char)
  | [] => none
  | c :: cs =>
    if c == ' ' then some ([], cs)
    else
      match splitOnce cs with
      | none => none
      | some (a, b) => some (c :: a, b)

/-- Model of `line.split(sep)` for a one-character separator: every field, empty
fields included. -/
def splitOnChar (sep : Char) : List Char → List (List Char)
  | [] => [[]]
  | c :: cs =>
    let r := splitOnChar sep cs
    if c == sep then [] :: r
    else
      match r with
      | [] => [[c]]
      | a :: as => (c :: a) :: as

/-- Model of `s.split()` with no argument: the maximal non-whitespace runs. -/
def pySplitWs (l : List Char) : List (List Char) :=
  (groupClass isPySpace l).filter (fun r =>
    match r with
    | [] => false
    | c :: _ => !isPySpace c)

/-- An accumulating decimal reader: `none` on the first non-digit. -/
def decDigitsAux : Nat → List Char → Option Nat
  | acc, [] => some acc
  | acc, c :: cs =>
    if c.isDigit then decDigitsAux (acc * 10 + (c.toNat - 48)) cs
    else none

/-- A non-empty all-digit numeral, read in base ten. -/
def decDigits (l : List Char) : Option Nat :=
  if l.isEmpty then none else decDigitsAux 0 l

/-- Model of `int(s)`: strip whitespace, allow one sign, require a non-empty decimal
numeral; `none` models the raised conversion error. -/
def pyIntL (l : List Char) : Option Int :=
  match pyStripList l with
  | '-' :: rest => (decDigits rest).map (fun n => - (n : Int))
  | '+' :: rest => (decDigits rest).map (fun n => (n : Int))
  | rest => (decDigits rest).map (fun n => (n : Int))

/-- Python list indexing `l[i]`: negative indices count from the end;
`none` models the index error. -/
def pyIndex {α : Type} (l : List α) (i : Int) : Option α :=
  if i < 0 then
    if i + l.length < 0 then none else l.get? (i + l.length).toNat
  else l.get? i.toNat

/-- Left-to-right effectful map over `Option`, as a list comprehension whose
element expression may raise: the first failure aborts. -/
def omapM {α β : Type} (f : α → Option β) : List α → Option (List β)
  | [] => some []
  | a :: as =>
    match f a, omapM f as with
    | some b, some bs => some (b :: bs)
    | _, _ => none

/-- Model of `[story[i - 1] for i in supporting]`: select the 1-based supporting
sentences from the current story buffer. -/
def substoryOf (story : List Sentence) (idxs : List Int) : Option (List Sentence) :=
  omapM (fun i => pyIndex story (i - 1)) idxs

/-- Strip a raw line, split off the line id before the first space, and
convert it to an integer: the head of the per-line processing of
`parse_stories`. -/
def splitId (rawLine : String) : Option (Int × List Char) :=
  match splitOnce (pyStripList rawLine.data) with
  | none => none
  | some (nidStr, rest) =>
    match pyIntL nidStr with
    | none => none
    | some nid => some (nid, rest)

/-- Process the content of one line (after the id), given the current story
buffer: returns the new buffer and the emitted example, if any. -/
def parseContent (onlySupporting : Bool) (story : List Sentence) (rest : List Char) :
    Option (List Sentence × Option Example) :=
  if rest.any (fun c => c == '\t') then
    match splitOnChar '\t' rest with
    | [q, a, supp] =>
      let query := tokenizeL q
      if onlySupporting then
        match omapM pyIntL (pySplitWs supp) with
        | none => none
        | some idxs =>
          match substoryOf story idxs with
          | none => none
          | some sub => some (story ++ [[]], some ⟨sub, query, String.mk a⟩)
      else
        some (story ++ [[]],
          some ⟨story.filter (fun s => !s.isEmpty), query, String.mk a⟩)
    | _ => none
  else
    some (story ++ [tokenizeL rest], none)

/-- Process one raw line of `parse_stories`: strip, split off the id, reset
the buffer on id 1, then handle the content. -/
def parseLine (onlySupporting : Bool) (story : List Sentence) (rawLine : String) :
    Option (List Sentence × Option Example) :=
  match splitId rawLine with
  | none => none
  | some (nid, rest) =>
    parseContent onlySupporting (if nid == 1 then [] else story) rest

/-- The loop of `parse_stories` over the line stream, carrying the story
buffer and collecting the emitted examples in order. -/
def parseLoop (onlySupporting : Bool) : List Sentence → List String → Option (List Example)
  | _, [] => some []
  | story, l :: ls =>
    match parseLine onlySupporting story l with
    | none => none
    | some (story', ex?) =>
      match parseLoop onlySupporting story' ls with
      | none => none
      | some rest =>
        some (match ex? with
          | some e => e :: rest
          | none => rest)

/-- Model of `parse_stories(lines, only_supporting)` from the source. -/
def parse_stories (lines : List String) (onlySupporting : Bool := false) :
    Option (List Example) :=
  parseLoop onlySupporting [] lines

-- § Vocabulary --------------------------------------------------------------

/-- All tokens of a list of examples, in the traversal order of
`get_tokenizer`: the story tokens sentence by sentence, the query tokens,
then the answer, example after example. -/
def allTokens (stories : List Example) : List Token :=
  stories.flatMap (fun e => (e.story.flatMap (fun s => s)) ++ e.query ++ [e.answer])

/-- Lexicographic strict order on character lists, by code point — the
order Python uses to compare the decoded strings. -/
def lexLt : List Char → List Char → Bool
  | [], [] => false
  | [], _ :: _ => true
  | _ :: _, [] => false
  | a :: as, b :: bs =>
    if a.toNat < b.toNat then true
    else if b.toNat < a.toNat then false
    else lexLt as bs

/-- Lexicographic strict order on tokens. -/
def strLt (a b : Token) : Bool := lexLt a.data b.data

/-- Insert a string into an ascending duplicate-free list, keeping it
ascending and duplicate-free. -/
def insertSorted (x : Token) : List Token → List Token
  | [] => [x]
  | y :: ys =>
    if strLt x y then x :: y :: ys
    else if x = y then y :: ys
    else y :: insertSorted x ys

/-- Model of `sorted(set(l))`: the distinct elements of `l` in ascending order. -/
def sortedDedup (l : List Token) : List Token := l.foldr insertSorted []

/-- Model of `vocab = [PAD_TOKEN] + sorted(set(tokens_all))` from `get_tokenizer`. -/
def vocabList (stories : List Example) : List Token :=
  PAD_TOKEN :: sortedDedup (allTokens stories)

/-- The index of the last occurrence of a string in a list: the value a
comprehension-built mapping assigns to a key, later entries winning. -/
def lastIdx : List Token → Token → Option Nat
  | [], _ => none
  | a :: as, t =>
    match lastIdx as t with
    | some i => some (i + 1)
    | none => if a = t then some 0 else none

/-- The mapping returned by `get_tokenizer(stories)`: each token of the
vocabulary list to its position, with a later position overriding an
earlier one, and `none` for absent keys. -/
def token_to_id (stories : List Example) (t : Token) : Option Nat :=
  lastIdx (vocabList stories) t

/-- The number of distinct non-pad vocabulary entries. -/
def vocabCount (stories : List Example) : Nat :=
  (sortedDedup (allTokens stories)).length

-- § Encoding ----------------------------------------------------------------

/-- An encoded example, every token replaced by an integer id. -/
structure EncodedExample where
  story : List (List Nat)
  query : List Nat
  answer : Nat
deriving DecidableEq, Repr

/-- The tokens an example feeds through the vocabulary lookup in
`tokenize_stories`: story tokens, query tokens, and the answer. -/
def exampleTokens (e : Example) : List Token :=
  (e.story.flatMap (fun s => s)) ++ e.query ++ [e.answer]

/-- Encode one example through a vocabulary lookup; `none` models the raised
key error on an absent token. -/
def encodeExample (v : Token → Option Nat) (e : Example) : Option EncodedExample :=
  match omapM (fun s => omapM v s) e.story, omapM v e.query, v e.answer with
  | some story, some query, some answer => some ⟨story, query, answer⟩
  | _, _, _ => none

/-- Model of `tokenize_stories(stories, token_to_id)` from the source, with the
mapping abstracted as a lookup function. -/
def tokenize_stories (stories : List Example) (v : Token → Option Nat) :
    Option (List EncodedExample) :=
  omapM (encodeExample v) stories

-- § Shape inference ---------------------------------------------------------

/-- Model of `max(l)` over a list of naturals; `none` on the empty list models the
raised value error. -/
def pyMax : List Nat → Option Nat
  | [] => none
  | a :: as =>
    match pyMax as with
    | none => some a
    | some m => some (max a m)

/-- The three maximum computations of `main`: maximum sentence length over
every sentence of every story, maximum story length, maximum query
length; any empty comprehension aborts. -/
def inferShapes (stories : List EncodedExample) : Option (Nat × Nat × Nat) :=
  match pyMax (stories.flatMap (fun e => e.story.map (fun s => s.length))),
      pyMax (stories.map (fun e => e.story.length)),
      pyMax (stories.map (fun e => e.query.length)) with
  | some sm, some tm, some qm => some (sm, tm, qm)
  | _, _, _ => none

-- § Padding -----------------------------------------------------------------

/-- Right-pad one sentence with `PAD_ID` up to the target length (the inner
loop of `pad_stories`; a longer sentence is left unchanged). -/
def padSentence (sm : Nat) (s : List Nat) : List Nat :=
  s ++ List.replicate (sm - s.length) PAD_ID

/-- The per-example body of `pad_stories`: pad each sentence, extend the
story with all-pad sentences, pad the query; `none` models a failed
assertion on an over-long sentence, story, or query. -/
def padExample (sm tm qm : Nat) (e : EncodedExample) : Option EncodedExample :=
  let story := e.story.map (padSentence sm)
  if story.all (fun s => s.length == sm) then
    let story2 := story ++ List.replicate (tm - story.length) (List.replicate sm PAD_ID)
    let query2 := e.query ++ List.replicate (qm - e.query.length) PAD_ID
    if story2.length == tm && query2.length == qm then
      some ⟨story2, query2, e.answer⟩
    else none
  else none

/-- Model of `pad_stories(stories, sentence_max_length, story_max_length,
query_max_length)` from the source. -/
def pad_stories (stories : List EncodedExample) (sm tm qm : Nat) :
    Option (List EncodedExample) :=
  omapM (padExample sm tm qm) stories

-- § Helper lemmas: characters and runs ---------------------------------------

theorem char_eq_of_toNat_eq {a b : Char} (h : a.toNat = b.toNat) : a = b := by
  have h2 : a.val = b.val := by
    apply UInt32.eq_of_toBitVec_eq
    apply BitVec.eq_of_toNat_eq
    simpa [UInt32.toNat] using h
  exact Char.ext h2

theorem groupClass_flatten (f : Char → Bool) :
    ∀ l : List Char, (groupClass f l).flatten = l := by
  intro l
  induction l with
  | nil => rfl
  | cons c cs ih =>
    cases h : groupClass f cs with
    | nil =>
      have hcs : cs = [] := by
        have := ih
        rw [h] at this
        simpa using this.symm
      simp [groupClass, h, hcs]
    | cons r rs =>
      cases r with
      | nil =>
        have h2 : rs.flatten = cs := by
          have := ih
          rw [h] at this
          simpa using this
        simp [groupClass, h, h2]
      | cons d r' =>
        have h2 : d :: (r' ++ rs.flatten) = cs := by
          have := ih
          rw [h] at this
          simpa using this
        by_cases hc : f c = f d
        · simp [groupClass, h, hc, h2]
        · simp [groupClass, h, hc, h2]

theorem groupClass_runs_nonempty (f : Char → Bool) :
    ∀ l : List Char, ∀ r ∈ groupClass f l, r ≠ [] := by
  intro l
  induction l with
  | nil => intro r hr; simp [groupClass] at hr
  | cons c cs ih =>
    intro r hr
    cases h : groupClass f cs with
    | nil =>
      rw [groupClass, h] at hr
      simp at hr
      simp [hr]
    | cons r0 rs =>
      cases r0 with
      | nil =>
        rw [groupClass, h] at hr
        rcases List.mem_cons.1 hr with h1 | h1
        · simp [h1]
        · exact ih r (by rw [h]; exact List.mem_cons_of_mem _ h1)
      | cons d r' =>
        by_cases hc : f c = f d
        · have hr2 : r ∈ (c :: d :: r') :: rs := by
            rw [groupClass, h] at hr
            simpa [hc] using hr
          rcases List.mem_cons.1 hr2 with h1 | h1
          · simp [h1]
          · exact ih r (by rw [h]; exact List.mem_cons_of_mem _ h1)
        · have hr2 : r ∈ [c] :: (d :: r') :: rs := by
            rw [groupClass, h] at hr
            simpa [hc] using hr
          rcases List.mem_cons.1 hr2 with h1 | h1
          · simp [h1]
          · exact ih r (by rw [h]; exact h1)

theorem groupClass_runs_homog (f : Char → Bool) :
    ∀ l : List Char, ∀ r ∈ groupClass f l, ∀ a ∈ r, ∀ b ∈ r, f a = f b := by
  intro l
  induction l with
  | nil => intro r hr; simp [groupClass] at hr
  | cons c cs ih =>
    intro r hr
    cases h : groupClass f cs with
    | nil =>
      rw [groupClass, h] at hr
      simp at hr
      subst hr
      intro a ha b hb
      simp at ha hb
      rw [ha, hb]
    | cons r0 rs =>
      cases r0 with
      | nil =>
        rw [groupClass, h] at hr
        rcases List.mem_cons.1 hr with h1 | h1
        · subst h1
          intro a ha b hb
          simp at ha hb
          rw [ha, hb]
        · exact ih r (by rw [h]; exact List.mem_cons_of_mem _ h1)
      | cons d r' =>
        by_cases hc : f c = f d
        · have hr2 : r ∈ (c :: d :: r') :: rs := by
            rw [groupClass, h] at hr
            simpa [hc] using hr
          rcases List.mem_cons.1 hr2 with h1 | h1
          · subst h1
            have hdr : ∀ a ∈ d :: r', ∀ b ∈ d :: r', f a = f b :=
              ih (d :: r') (by rw [h]; exact List.mem_cons_self _ _)
            intro a ha b hb
            have key : ∀ x ∈ c :: d :: r', f x = f c := by
              intro x hx
              rcases List.mem_cons.1 hx with h2 | h2
              · rw [h2]
              · rw [hdr x h2 d (List.mem_cons_self _ _), ← hc]
            rw [key a ha, key b hb]
          · exact ih r (by rw [h]; exact List.mem_cons_of_mem _ h1)
        · have hr2 : r ∈ [c] :: (d :: r') :: rs := by
            rw [groupClass, h] at hr
            simpa [hc] using hr
          rcases List.mem_cons.1 hr2 with h1 | h1
          · subst h1
            intro a ha b hb
            simp at ha hb
            rw [ha, hb]
          · exact ih r (by rw [h]; exact h1)

theorem mem_pyStripList {a : Char} {l : List Char} (h : a ∈ pyStripList l) : a ∈ l := by
  unfold pyStripList at h
  rw [List.mem_reverse] at h
  have h1 := (List.dropWhile_sublist (l := (l.dropWhile isPySpace).reverse)
    (p := isPySpace)).subset h
  rw [List.mem_reverse] at h1
  exact (List.dropWhile_sublist (l := l) (p := isPySpace)).subset h1

theorem tokenizeCore_token_shape :
    ∀ l : List Char, ∀ t ∈ tokenizeCore l,
      t ≠ [] ∧ ((∀ c ∈ t, isWordChar c = true) ∨ (∀ c ∈ t, isWordChar c = false)) := by
  intro l t ht
  rcases List.mem_filterMap.1 ht with ⟨r, hr, heq⟩
  simp only at heq
  by_cases he : (pyStripList r).isEmpty
  · rw [if_pos he] at heq; exact absurd heq (by simp)
  · rw [if_neg he] at heq
    have hte : t = pyStripList r := by
      exact (Option.some_injective _ heq).symm
    have htne : t ≠ [] := by
      rw [hte]
      intro hnil
      rw [hnil] at he
      simp at he
    refine ⟨htne, ?_⟩
    have hsub : ∀ c ∈ t, c ∈ r := by
      intro c hc
      exact mem_pyStripList (hte ▸ hc)
    have hhom := groupClass_runs_homog isWordChar l r hr
    cases t with
    | nil => exact absurd rfl htne
    | cons c0 cs =>
      cases hw : isWordChar c0 with
      | true =>
        left
        intro c hc
        rw [hhom c (hsub c hc) c0 (hsub c0 (List.mem_cons_self _ _)), hw]
      | false =>
        right
        intro c hc
        rw [hhom c (hsub c hc) c0 (hsub c0 (List.mem_cons_self _ _)), hw]

-- § Helper lemmas: effectful map over options --------------------------------

theorem omapM_eq_none_iff {α β : Type} (f : α → Option β) :
    ∀ l : List α, (omapM f l = none ↔ ∃ a ∈ l, f a = none) := by
  intro l
  induction l with
  | nil => simp [omapM]
  | cons a as ih =>
    cases hfa : f a with
    | none => simp [omapM, hfa]
    | some b =>
      cases has : omapM f as with
      | none =>
        rw [has] at ih
        constructor
        · intro _
          rcases ih.1 rfl with ⟨x, hx, hfx⟩
          exact ⟨x, List.mem_cons_of_mem _ hx, hfx⟩
        · intro _
          show omapM f (a :: as) = none
          rw [omapM, hfa, has]
      | some bs =>
        rw [has] at ih
        constructor
        · intro h
          have heq : omapM f (a :: as) = some (b :: bs) := by
            rw [omapM, hfa, has]
          rw [heq] at h
          exact absurd h (by simp)
        · rintro ⟨x, hx, hfx⟩
          rcases List.mem_cons.1 hx with h1 | h1
          · rw [h1] at hfx
            rw [hfx] at hfa
            exact absurd hfa (by simp)
          · exact absurd (ih.2 ⟨x, h1, hfx⟩) (by simp)

theorem omapM_forall₂ {α β : Type} (f : α → Option β) :
    ∀ (l : List α) (l' : List β), omapM f l = some l' →
      List.Forall₂ (fun a b => f a = some b) l l' := by
  intro l
  induction l with
  | nil =>
    intro l' h
    simp [omapM] at h
    subst h
    exact List.Forall₂.nil
  | cons a as ih =>
    intro l' h
    cases hfa : f a with
    | none => rw [omapM, hfa] at h; exact absurd h (by simp)
    | some b =>
      cases has : omapM f as with
      | none => rw [omapM, hfa, has] at h; exact absurd h (by simp)
      | some bs =>
        rw [omapM, hfa, has] at h
        simp at h
        rw [← h]
        exact List.Forall₂.cons hfa (ih bs has)

-- § C1 -----------------------------------------------------------------------

/-- C1 counterexample: on the code, `tokenize` does not drop the final
punctuation run; the claimed output is wrong. -/
theorem tokenize_claimed_output_cex :
    tokenize ("John went to the garden.") ≠ ["John", "went", "to", "the", "garden"] := by
  decide

/-- C1 (amended): `tokenize` splits its input into the maximal runs of
word characters and of non-word characters (the runs concatenate back to
the input); each run, stripped of whitespace, becomes a token when
non-empty.  Word runs are kept as tokens, and non-word runs survive as
punctuation tokens whenever they hold a non-whitespace character, so
`tokenize("John went to the garden.")` ends with a `"."` token.  Every
token is non-empty and consists either purely of word characters or
purely of non-word characters. -/
theorem tokenize_keeps_stripped_punctuation :
    tokenize ("John went to the garden.") = ["John", "went", "to", "the", "garden", "."]
    ∧ (∀ l : List Char, (splitRuns l).flatten = l)
    ∧ (∀ l : List Char, ∀ t ∈ tokenizeCore l,
        t ≠ [] ∧ ((∀ c ∈ t, isWordChar c = true) ∨ (∀ c ∈ t, isWordChar c = false))) :=
  ⟨by decide, groupClass_flatten isWordChar, tokenizeCore_token_shape⟩

/-- C1 witness: the amended theorem applied to a concrete input. -/
theorem tokenize_keeps_stripped_punctuation_witness :
    tokenize ("a.") = ["a", "."] ∧ (['a'] : List Char) ≠ [] :=
  ⟨by decide,
    (tokenize_keeps_stripped_punctuation.2.2 ("a.".data) ['a'] (by decide)).1⟩

-- § C2 -----------------------------------------------------------------------

/-- C2 counterexample: the claimed story omits the `"."` token the
tokenizer keeps, so the parse does not return the claimed example. -/
theorem parse_two_line_claimed_cex :
    parse_stories ["1 Mary moved to the bathroom.", "2 Where is Mary?\tbathroom\t1"] false ≠
      some [⟨[["Mary", "moved", "to", "the", "bathroom"]],
        ["Where", "is", "Mary"], "bathroom"⟩] := by
  decide

/-- C2 (amended): parsing the two-line story yields exactly one example with
story `[["Mary","moved","to","the","bathroom","."]]`, query
`["Where","is","Mary","?"]` and answer `"bathroom"`, and
`only_supporting=True` selects the same single sentence via index 1. -/
theorem parse_two_line_roundtrip :
    parse_stories ["1 Mary moved to the bathroom.", "2 Where is Mary?\tbathroom\t1"] false =
      some [⟨[["Mary", "moved", "to", "the", "bathroom", "."]],
        ["Where", "is", "Mary", "?"], "bathroom"⟩]
    ∧ parse_stories ["1 Mary moved to the bathroom.", "2 Where is Mary?\tbathroom\t1"] true =
      some [⟨[["Mary", "moved", "to", "the", "bathroom", "."]],
        ["Where", "is", "Mary", "?"], "bathroom"⟩] :=
  ⟨by decide, by decide⟩

-- § C3 -----------------------------------------------------------------------

/-- C3 counterexample: a supporting-fact index that resolves to the
sentinel empty placeholder does not make the parse fail; the empty
placeholder sentence is silently included in the emitted story. -/
theorem sentinel_index_included_cex :
    parse_stories ["1 Mary moved to the bathroom.", "2 Where is Mary?\tbathroom\t1",
      "3 Where is Mary?\tbathroom\t2"] true =
      some [⟨[["Mary", "moved", "to", "the", "bathroom", "."]],
        ["Where", "is", "Mary", "?"], "bathroom"⟩,
        ⟨[[]], ["Where", "is", "Mary", "?"], "bathroom"⟩] := by
  decide

/-- C3 (amended): with `only_supporting=True`, a supporting-fact index that
is out of range of the current story buffer (after Python negative-index
wrap-around) makes the parse fail; but an index resolving to the sentinel
empty placeholder does not fail — the empty sentence is silently included.
The substory selection fails exactly when some index is out of range. -/
theorem supporting_index_behavior :
    parse_stories ["1 Mary moved to the bathroom.", "2 Where is Mary?\tbathroom\t5"] true = none
    ∧ (parse_stories ["1 Mary moved to the bathroom.", "2 Where is Mary?\tbathroom\t1",
        "3 Where is Mary?\tbathroom\t2"] true).isSome = true
    ∧ (∀ (story : List Sentence) (idxs : List Int),
        (substoryOf story idxs = none ↔ ∃ i ∈ idxs, pyIndex story (i - 1) = none)) :=
  ⟨by decide, by decide,
    fun story idxs => omapM_eq_none_iff (fun i => pyIndex story (i - 1)) idxs⟩

/-- C3 witness: the substory-selection characterization applied at a
concrete buffer and index list. -/
theorem supporting_index_behavior_witness :
    substoryOf [] [1] = none :=
  (supporting_index_behavior.2.2 [] [1]).2 ⟨1, by decide, by decide⟩

-- § C7 -----------------------------------------------------------------------

/-- C7: a line whose line-id is 1 resets the story buffer before being
processed, so parsing from that line on is independent of every sentence
accumulated before it — no sentence leaks across a story boundary. -/
theorem id1_resets_story (l : String) (rest : List Char)
    (h : splitId l = some (1, rest)) :
    ∀ (os : Bool) (b₁ b₂ : List Sentence) (ls : List String),
      parseLoop os b₁ (l :: ls) = parseLoop os b₂ (l :: ls) := by
  intro os b₁ b₂ ls
  have hb : ∀ b : List Sentence, parseLine os b l = parseContent os [] rest := by
    intro b
    simp [parseLine, h]
  simp only [parseLoop, hb]

/-- C7 witness: a buffered sentence does not change the parse once a line
with id 1 is seen. -/
theorem id1_resets_story_witness :
    parseLoop false [["leak"]] ["1 John went home."] =
      parseLoop false [] ["1 John went home."] :=
  id1_resets_story ("1 John went home.") ("John went home.".data) (by decide)
    false [["leak"]] [] []

-- § Helper lemmas: the lexicographic order -----------------------------------

theorem lexLt_irrefl : ∀ l : List Char, lexLt l l = false := by
  intro l
  induction l with
  | nil => rfl
  | cons a as ih => simp [lexLt, ih]

theorem lexLt_asymm : ∀ a b : List Char, lexLt a b = true → lexLt b a = false := by
  intro a
  induction a with
  | nil =>
    intro b h
    cases b with
    | nil => rfl
    | cons y ys => rfl
  | cons x xs ih =>
    intro b h
    cases b with
    | nil => exact absurd h (by simp [lexLt])
    | cons y ys =>
      by_cases h1 : x.toNat < y.toNat
      · have h2 : ¬ y.toNat < x.toNat := Nat.lt_asymm h1
        simp [lexLt, h1, h2]
      · by_cases h2 : y.toNat < x.toNat
        · rw [lexLt, if_neg h1, if_pos h2] at h
          exact absurd h (by simp)
        · rw [lexLt, if_neg h1, if_neg h2] at h
          have h3 := ih ys h
          simp [lexLt, h1, h2, h3]

theorem lexLt_trans : ∀ a b c : List Char,
    lexLt a b = true → lexLt b c = true → lexLt a c = true := by
  intro a
  induction a with
  | nil =>
    intro b c hab hbc
    cases b with
    | nil => exact absurd hab (by simp [lexLt])
    | cons y ys =>
      cases c with
      | nil => exact absurd hbc (by simp [lexLt])
      | cons z zs => rfl
  | cons x xs ih =>
    intro b c hab hbc
    cases b with
    | nil => exact absurd hab (by simp [lexLt])
    | cons y ys =>
      cases c with
      | nil => exact absurd hbc (by simp [lexLt])
      | cons z zs =>
        by_cases hxy : x.toNat < y.toNat
        · by_cases hyz : y.toNat < z.toNat
          · have hxz : x.toNat < z.toNat := Nat.lt_trans hxy hyz
            simp [lexLt, hxz]
          · by_cases hzy : z.toNat < y.toNat
            · rw [lexLt, if_neg hyz, if_pos hzy] at hbc
              exact absurd hbc (by simp)
            · have heq : y.toNat = z.toNat :=
                Nat.le_antisymm (Nat.le_of_not_lt hzy) (Nat.le_of_not_lt hyz)
              have hxz : x.toNat < z.toNat := heq ▸ hxy
              simp [lexLt, hxz]
        · by_cases hyx : y.toNat < x.toNat
          · rw [lexLt, if_neg hxy, if_pos hyx] at hab
            exact absurd hab (by simp)
          · have hxyeq : x.toNat = y.toNat :=
              Nat.le_antisymm (Nat.le_of_not_lt hyx) (Nat.le_of_not_lt hxy)
            rw [lexLt, if_neg hxy, if_neg hyx] at hab
            by_cases hyz : y.toNat < z.toNat
            · have hxz : x.toNat < z.toNat := hxyeq ▸ hyz
              simp [lexLt, hxz]
            · by_cases hzy : z.toNat < y.toNat
              · rw [lexLt, if_neg hyz, if_pos hzy] at hbc
                exact absurd hbc (by simp)
              · have hyzeq : y.toNat = z.toNat :=
                  Nat.le_antisymm (Nat.le_of_not_lt hzy) (Nat.le_of_not_lt hyz)
                rw [lexLt, if_neg hyz, if_neg hzy] at hbc
                have hrec := ih ys zs hab hbc
                have hxzeq : x.toNat = z.toNat := hxyeq.trans hyzeq
                simp [lexLt, hxzeq, Nat.lt_irrefl, hrec]

theorem lexLt_eq_of_not : ∀ a b : List Char,
    lexLt a b = false → lexLt b a = false → a = b := by
  intro a
  induction a with
  | nil =>
    intro b h1 h2
    cases b with
    | nil => rfl
    | cons y ys => exact absurd h1 (by simp [lexLt])
  | cons x xs ih =>
    intro b h1 h2
    cases b with
    | nil => exact absurd h2 (by simp [lexLt])
    | cons y ys =>
      by_cases hxy : x.toNat < y.toNat
      · rw [lexLt, if_pos hxy] at h1
        exact absurd h1 (by simp)
      · by_cases hyx : y.toNat < x.toNat
        · rw [lexLt, if_pos hyx] at h2
          exact absurd h2 (by simp)
        · have hx : x = y := char_eq_of_toNat_eq
            (Nat.le_antisymm (Nat.le_of_not_lt hyx) (Nat.le_of_not_lt hxy))
          rw [lexLt, if_neg hxy, if_neg hyx] at h1
          rw [lexLt, if_neg hyx, if_neg hxy] at h2
          rw [hx, ih ys h1 h2]

theorem strLt_irrefl (a : Token) : strLt a a = false := lexLt_irrefl a.data

theorem strLt_asymm {a b : Token} (h : strLt a b = true) : strLt b a = false :=
  lexLt_asymm a.data b.data h

theorem strLt_trans {a b c : Token} (h1 : strLt a b = true) (h2 : strLt b c = true) :
    strLt a c = true :=
  lexLt_trans a.data b.data c.data h1 h2

theorem strLt_eq_of_not {a b : Token} (h1 : strLt a b = false)
    (h2 : strLt b a = false) : a = b := by
  have hd := lexLt_eq_of_not a.data b.data h1 h2
  cases a
  cases b
  exact congrArg String.mk hd

-- § Helper lemmas: sorted deduplication --------------------------------------

theorem mem_insertSorted (x a : Token) :
    ∀ l : List Token, (a ∈ insertSorted x l ↔ a = x ∨ a ∈ l) := by
  intro l
  induction l with
  | nil => simp [insertSorted]
  | cons y ys ih =>
    rw [insertSorted]
    by_cases h1 : strLt x y = true
    · rw [if_pos h1]
      simp
    · rw [if_neg h1]
      by_cases h2 : x = y
      · rw [if_pos h2]
        subst h2
        constructor
        · intro h
          exact Or.inr h
        · rintro (rfl | h)
          · exact List.mem_cons_self _ _
          · exact h
      · rw [if_neg h2]
        simp only [List.mem_cons, ih]
        tauto

theorem pairwise_insertSorted (x : Token) :
    ∀ l : List Token, l.Pairwise (fun a b => strLt a b = true) →
      (insertSorted x l).Pairwise (fun a b => strLt a b = true) := by
  intro l
  induction l with
  | nil =>
    intro _
    simp [insertSorted]
  | cons y ys ih =>
    intro hp
    rw [List.pairwise_cons] at hp
    obtain ⟨hy, hys⟩ := hp
    rw [insertSorted]
    by_cases h1 : strLt x y = true
    · rw [if_pos h1]
      rw [List.pairwise_cons]
      constructor
      · intro b hb
        rcases List.mem_cons.1 hb with rfl | hb
        · exact h1
        · exact strLt_trans h1 (hy b hb)
      · exact List.pairwise_cons.2 ⟨hy, hys⟩
    · rw [if_neg h1]
      by_cases h2 : x = y
      · rw [if_pos h2]
        exact List.pairwise_cons.2 ⟨hy, hys⟩
      · rw [if_neg h2]
        have h1' : strLt x y = false := by
          revert h1
          cases strLt x y <;> simp
        rw [List.pairwise_cons]
        constructor
        · intro b hb
          rcases (mem_insertSorted x b ys).1 hb with rfl | hb
          · cases hyx : strLt y b with
            | true => rfl
            | false => exact absurd (strLt_eq_of_not h1' hyx).symm (fun h => h2 h.symm)
          · exact hy b hb
        · exact ih hys

theorem sorted_sortedDedup :
    ∀ l : List Token, (sortedDedup l).Pairwise (fun a b => strLt a b = true) := by
  intro l
  induction l with
  | nil => simp [sortedDedup]
  | cons a as ih => exact pairwise_insertSorted a (sortedDedup as) ih

theorem mem_sortedDedup : ∀ (a : Token) (l : List Token), a ∈ sortedDedup l ↔ a ∈ l := by
  intro a l
  induction l with
  | nil => simp [sortedDedup]
  | cons b bs ih =>
    show a ∈ insertSorted b (sortedDedup bs) ↔ _
    rw [mem_insertSorted]
    simp [ih]

theorem nodup_sortedDedup (l : List Token) : (sortedDedup l).Nodup := by
  have h := sorted_sortedDedup l
  exact h.imp (fun {a b} hab => by
    intro hEq
    rw [hEq, strLt_irrefl b] at hab
    exact absurd hab (by simp))

-- § Helper lemmas: last-occurrence lookup ------------------------------------

theorem lastIdx_eq_none_iff : ∀ (l : List Token) (t : Token),
    lastIdx l t = none ↔ t ∉ l := by
  intro l t
  induction l with
  | nil => simp [lastIdx]
  | cons a as ih =>
    cases h : lastIdx as t with
    | some i =>
      simp only [lastIdx, h]
      have htm : t ∈ as := by
        by_contra hnot
        rw [ih.2 hnot] at h
        exact absurd h (by simp)
      constructor
      · intro hsome
        exact absurd hsome (by simp)
      · intro hout
        exact absurd (List.mem_cons_of_mem a htm) hout
    | none =>
      simp only [lastIdx, h]
      have hnotas : t ∉ as := ih.1 h
      by_cases ha : a = t
      · rw [if_pos ha]
        constructor
        · intro hs
          exact absurd hs (by simp)
        · intro hout
          exact absurd (by rw [← ha]; exact List.mem_cons_self a as) hout
      · rw [if_neg ha]
        constructor
        · intro _
          intro hmem
          rcases List.mem_cons.1 hmem with h1 | h1
          · exact ha h1.symm
          · exact hnotas h1
        · intro _
          rfl

theorem lastIdx_eq_some_iff : ∀ l : List Token, l.Nodup → ∀ (t : Token) (i : Nat),
    (lastIdx l t = some i ↔ l.get? i = some t) := by
  intro l
  induction l with
  | nil =>
    intro _ t i
    simp [lastIdx]
  | cons a as ih =>
    intro hnd t i
    rw [List.nodup_cons] at hnd
    obtain ⟨hna, hnd'⟩ := hnd
    cases h : lastIdx as t with
    | some j =>
      have hmem : t ∈ as := by
        by_contra hnot
        rw [(lastIdx_eq_none_iff as t).2 hnot] at h
        exact absurd h (by simp)
      have hget : as.get? j = some t := (ih hnd' t j).1 h
      simp only [lastIdx, h]
      constructor
      · intro hsome
        have hij : i = j + 1 := by simpa using hsome.symm
        subst hij
        simpa using hget
      · intro hg
        cases i with
        | zero =>
          simp at hg
          rw [← hg] at hmem
          exact absurd hmem hna
        | succ k =>
          have hk : as.get? k = some t := by simpa using hg
          have hjk := (ih hnd' t k).2 hk
          rw [h] at hjk
          simp at hjk
          subst hjk
          rfl
    | none =>
      have hnotas : t ∉ as := (lastIdx_eq_none_iff as t).1 h
      simp only [lastIdx, h]
      by_cases ha : a = t
      · rw [if_pos ha]
        constructor
        · intro hs
          have hi : i = 0 := by simpa using hs.symm
          subst hi
          simpa using ha
        · intro hg
          cases i with
          | zero => rfl
          | succ k =>
            have hk : as.get? k = some t := by simpa using hg
            exact absurd (List.get?_mem hk) hnotas
      · rw [if_neg ha]
        constructor
        · intro hs
          exact absurd hs (by simp)
        · intro hg
          cases i with
          | zero =>
            simp at hg
            exact absurd hg ha
          | succ k =>
            have hk : as.get? k = some t := by simpa using hg
            exact absurd (List.get?_mem hk) hnotas

-- § C4 -----------------------------------------------------------------------

/-- C4 counterexample: when the literal pad token occurs among the example
tokens, the comprehension-built mapping no longer sends the pad token to
id 0 (the later, sorted occurrence overrides the prepended one). -/
theorem vocab_pad_collision_cex :
    token_to_id [⟨[], [], "_PAD"⟩] PAD_TOKEN ≠ some 0
    ∧ token_to_id [⟨[], [], "_PAD"⟩] PAD_TOKEN = some 1 :=
  ⟨by decide, by decide⟩

/-- C4 (amended): provided the reserved pad token does not itself occur among
the example tokens, the vocabulary maps the pad token to id 0 and maps
the distinct tokens of the examples bijectively onto ids 1..N in
ascending lexicographic order (order-preserving, hence injective, and
surjective onto 1..N); the construction is a pure function of the
examples, so building twice yields the identical mapping. -/
theorem vocab_pad_zero_and_bijection (stories : List Example)
    (hp : PAD_TOKEN ∉ allTokens stories) :
    token_to_id stories PAD_TOKEN = some 0
    ∧ (∀ t ∈ allTokens stories, ∃ i, token_to_id stories t = some i
        ∧ 1 ≤ i ∧ i ≤ vocabCount stories)
    ∧ (∀ t₁ t₂ i₁ i₂, t₁ ∈ allTokens stories → t₂ ∈ allTokens stories →
        token_to_id stories t₁ = some i₁ → token_to_id stories t₂ = some i₂ →
        (strLt t₁ t₂ = true ↔ i₁ < i₂))
    ∧ (∀ i, 1 ≤ i → i ≤ vocabCount stories →
        ∃ t ∈ allTokens stories, token_to_id stories t = some i) := by
  have hPD : PAD_TOKEN ∉ sortedDedup (allTokens stories) :=
    fun h => hp ((mem_sortedDedup _ _).1 h)
  have hDnd : (sortedDedup (allTokens stories)).Nodup := nodup_sortedDedup _
  have hvnd : (vocabList stories).Nodup := List.nodup_cons.2 ⟨hPD, hDnd⟩
  have hsorted := sorted_sortedDedup (allTokens stories)
  have hlook : ∀ (t : Token) (i : Nat),
      token_to_id stories t = some i ↔ (vocabList stories).get? i = some t :=
    fun t i => lastIdx_eq_some_iff (vocabList stories) hvnd t i
  refine ⟨?_, ?_, ?_, ?_⟩
  · exact (hlook PAD_TOKEN 0).2 rfl
  · intro t ht
    have htD : t ∈ sortedDedup (allTokens stories) := (mem_sortedDedup _ _).2 ht
    rcases List.mem_iff_get.1 htD with ⟨⟨j, hj⟩, hget⟩
    have hg2 : (vocabList stories).get? (j + 1) = some t := by
      show (PAD_TOKEN :: sortedDedup (allTokens stories)).get? (j + 1) = some t
      rw [List.get?_cons_succ, List.get?_eq_get hj, hget]
    exact ⟨j + 1, (hlook t (j + 1)).2 hg2,
      Nat.succ_le_succ (Nat.zero_le j), Nat.succ_le_of_lt hj⟩
  · intro t₁ t₂ i₁ i₂ h₁m h₂m h₁ h₂
    have hg₁ : (vocabList stories).get? i₁ = some t₁ := (hlook _ _).1 h₁
    have hg₂ : (vocabList stories).get? i₂ = some t₂ := (hlook _ _).1 h₂
    have hne₁ : t₁ ≠ PAD_TOKEN := fun h => hp (h ▸ h₁m)
    have hne₂ : t₂ ≠ PAD_TOKEN := fun h => hp (h ▸ h₂m)
    obtain ⟨j₁, rfl⟩ : ∃ j₁, i₁ = j₁ + 1 := by
      cases i₁ with
      | zero =>
        have : PAD_TOKEN = t₁ := by simpa [vocabList] using hg₁
        exact absurd this.symm hne₁
      | succ k => exact ⟨k, rfl⟩
    obtain ⟨j₂, rfl⟩ : ∃ j₂, i₂ = j₂ + 1 := by
      cases i₂ with
      | zero =>
        have : PAD_TOKEN = t₂ := by simpa [vocabList] using hg₂
        exact absurd this.symm hne₂
      | succ k => exact ⟨k, rfl⟩
    have hd₁ : (sortedDedup (allTokens stories)).get? j₁ = some t₁ := by
      simpa [vocabList] using hg₁
    have hd₂ : (sortedDedup (allTokens stories)).get? j₂ = some t₂ := by
      simpa [vocabList] using hg₂
    rcases List.get?_eq_some.1 hd₁ with ⟨hj₁, hget₁⟩
    rcases List.get?_eq_some.1 hd₂ with ⟨hj₂, hget₂⟩
    constructor
    · intro hlt
      rcases Nat.lt_trichotomy j₁ j₂ with h | h | h
      · exact Nat.succ_lt_succ h
      · subst h
        have heqt : t₁ = t₂ := by
          rw [← hget₁, ← hget₂]
        rw [heqt, strLt_irrefl] at hlt
        exact absurd hlt (by simp)
      · have hba := (List.pairwise_iff_get.1 hsorted) ⟨j₂, hj₂⟩ ⟨j₁, hj₁⟩ h
        rw [hget₁, hget₂] at hba
        rw [strLt_asymm hba] at hlt
        exact absurd hlt (by simp)
    · intro hij
      have hj : j₁ < j₂ := Nat.lt_of_succ_lt_succ hij
      have hab := (List.pairwise_iff_get.1 hsorted) ⟨j₁, hj₁⟩ ⟨j₂, hj₂⟩ hj
      rw [hget₁, hget₂] at hab
      exact hab
  · intro i h1 hle
    obtain ⟨j, rfl⟩ : ∃ j, i = j + 1 := ⟨i - 1, by omega⟩
    have hj : j < (sortedDedup (allTokens stories)).length := by
      have hvc : vocabCount stories = (sortedDedup (allTokens stories)).length := rfl
      omega
    refine ⟨(sortedDedup (allTokens stories)).get ⟨j, hj⟩,
      (mem_sortedDedup _ _).1 (List.get_mem _ j hj), ?_⟩
    apply (hlook _ (j + 1)).2
    show (PAD_TOKEN :: sortedDedup (allTokens stories)).get? (j + 1) = some _
    rw [List.get?_cons_succ, List.get?_eq_get hj]

/-- C4 witness: the amended theorem applied to a concrete example set. -/
theorem vocab_pad_zero_and_bijection_witness :
    token_to_id [⟨[["b", "a"]], ["c"], "a"⟩] PAD_TOKEN = some 0 :=
  (vocab_pad_zero_and_bijection [⟨[["b", "a"]], ["c"], "a"⟩] (by decide)).1

-- § Helper lemmas: encoding --------------------------------------------------

theorem encodeExample_none_iff (v : Token → Option Nat) (e : Example) :
    encodeExample v e = none ↔
      (omapM (fun s => omapM v s) e.story = none
        ∨ omapM v e.query = none ∨ v e.answer = none) := by
  unfold encodeExample
  rcases omapM (fun s => omapM v s) e.story with _ | st <;>
    rcases omapM v e.query with _ | q <;>
    rcases v e.answer with _ | a <;> simp

theorem encodeExample_some (v : Token → Option Nat) (e : Example) (enc : EncodedExample)
    (h : encodeExample v e = some enc) :
    omapM (fun s => omapM v s) e.story = some enc.story
    ∧ omapM v e.query = some enc.query ∧ v e.answer = some enc.answer := by
  cases hA : omapM (fun s => omapM v s) e.story with
  | none => simp [encodeExample, hA] at h
  | some st =>
    cases hB : omapM v e.query with
    | none => simp [encodeExample, hA, hB] at h
    | some q =>
      cases hC : v e.answer with
      | none => simp [encodeExample, hA, hB, hC] at h
      | some a =>
        simp only [encodeExample, hA, hB, hC, Option.some.injEq] at h
        subst h
        exact ⟨rfl, rfl, rfl⟩

-- § C8 -----------------------------------------------------------------------

/-- C8: encoding an example against a vocabulary fails exactly when some
token of a story sentence, the query, or the answer is absent from the
vocabulary; when encoding succeeds, every token has been replaced by its
vocabulary id and the answer by its single id, with no substitution. -/
theorem encode_fails_iff_unknown (v : Token → Option Nat) (e : Example) :
    (encodeExample v e = none ↔ ∃ t ∈ exampleTokens e, v t = none)
    ∧ (∀ enc, encodeExample v e = some enc →
        List.Forall₂ (fun s s' => List.Forall₂ (fun t i => v t = some i) s s')
          e.story enc.story
        ∧ List.Forall₂ (fun t i => v t = some i) e.query enc.query
        ∧ v e.answer = some enc.answer) := by
  have hmem : ∀ t, t ∈ exampleTokens e ↔
      ((∃ s ∈ e.story, t ∈ s) ∨ t ∈ e.query ∨ t = e.answer) := by
    intro t
    simp [exampleTokens]
  constructor
  · constructor
    · intro h
      rcases (encodeExample_none_iff v e).1 h with h1 | h1 | h1
      · rcases (omapM_eq_none_iff _ e.story).1 h1 with ⟨s, hsm, hsn⟩
        rcases (omapM_eq_none_iff v s).1 hsn with ⟨t, htm, htn⟩
        exact ⟨t, (hmem t).2 (Or.inl ⟨s, hsm, htm⟩), htn⟩
      · rcases (omapM_eq_none_iff v e.query).1 h1 with ⟨t, htm, htn⟩
        exact ⟨t, (hmem t).2 (Or.inr (Or.inl htm)), htn⟩
      · exact ⟨e.answer, (hmem e.answer).2 (Or.inr (Or.inr rfl)), h1⟩
    · rintro ⟨t, htm, htn⟩
      apply (encodeExample_none_iff v e).2
      rcases (hmem t).1 htm with ⟨s, hsm, hts⟩ | htq | hta
      · exact Or.inl ((omapM_eq_none_iff _ e.story).2
          ⟨s, hsm, (omapM_eq_none_iff v s).2 ⟨t, hts, htn⟩⟩)
      · exact Or.inr (Or.inl ((omapM_eq_none_iff v e.query).2 ⟨t, htq, htn⟩))
      · exact Or.inr (Or.inr (hta ▸ htn))
  · intro enc h
    obtain ⟨hA, hB, hC⟩ := encodeExample_some v e enc h
    refine ⟨?_, omapM_forall₂ v e.query enc.query hB, hC⟩
    have hf := omapM_forall₂ (fun s => omapM v s) e.story enc.story hA
    exact hf.imp (fun {a b} hab => omapM_forall₂ v a b hab)

/-- C8 witness: a concrete one-token vocabulary encodes a concrete example,
and the answer is mapped to its id. -/
theorem encode_fails_iff_unknown_witness :
    encodeExample (fun t => if t = ("a" : Token) then some 1 else none)
        ⟨[["a"]], ["a"], "a"⟩ = some ⟨[[1]], [1], 1⟩
    ∧ (fun t => if t = ("a" : Token) then some 1 else none) ("a") = some 1 := by
  refine ⟨by decide, ?_⟩
  exact ((encode_fails_iff_unknown (fun t => if t = ("a" : Token) then some 1 else none)
    ⟨[["a"]], ["a"], "a"⟩).2 ⟨[[1]], [1], 1⟩ (by decide)).2.2

-- § Helper lemmas: maxima ----------------------------------------------------

theorem pyMax_eq_none_iff : ∀ l : List Nat, pyMax l = none ↔ l = [] := by
  intro l
  cases l with
  | nil => simp [pyMax]
  | cons a as =>
    rw [pyMax]
    cases pyMax as <;> simp

theorem pyMax_spec : ∀ (l : List Nat) (m : Nat), pyMax l = some m →
    (∀ x ∈ l, x ≤ m) ∧ m ∈ l := by
  intro l
  induction l with
  | nil => intro m h; simp [pyMax] at h
  | cons a as ih =>
    intro m h
    cases has : pyMax as with
    | none =>
      have hnil : as = [] := (pyMax_eq_none_iff as).1 has
      rw [pyMax, has] at h
      simp at h
      subst h
      subst hnil
      exact ⟨by intro x hx; simp at hx; simp [hx], by simp⟩
    | some m' =>
      rw [pyMax, has] at h
      simp at h
      subst h
      obtain ⟨hub, hmem⟩ := ih m' has
      constructor
      · intro x hx
        rcases List.mem_cons.1 hx with h1 | h1
        · rw [h1]; exact le_max_left _ _
        · exact Nat.le_trans (hub x h1) (le_max_right _ _)
      · rcases Nat.le_total a m' with h1 | h1
        · rw [max_eq_right h1]
          exact List.mem_cons_of_mem _ hmem
        · rw [max_eq_left h1]
          exact List.mem_cons_self _ _

-- § C5 -----------------------------------------------------------------------

/-- C5: shape inference over the combined set returns the maximum sentence
length over every sentence of every story, the maximum story sentence
count, and the maximum query length (each value is an upper bound and is
attained), and it fails on the empty set. -/
theorem infer_shapes_maxima :
    inferShapes [] = none
    ∧ ∀ (st : List EncodedExample) (sm tm qm : Nat), inferShapes st = some (sm, tm, qm) →
        ((∀ e ∈ st, ∀ s ∈ e.story, s.length ≤ sm)
          ∧ (∃ e ∈ st, ∃ s ∈ e.story, s.length = sm))
        ∧ ((∀ e ∈ st, e.story.length ≤ tm) ∧ (∃ e ∈ st, e.story.length = tm))
        ∧ ((∀ e ∈ st, e.query.length ≤ qm) ∧ (∃ e ∈ st, e.query.length = qm)) := by
  constructor
  · rfl
  · intro st sm tm qm h
    cases hA : pyMax (st.flatMap (fun e => e.story.map (fun s => s.length))) with
    | none => simp [inferShapes, hA] at h
    | some mA =>
      cases hB : pyMax (st.map (fun e => e.story.length)) with
      | none => simp [inferShapes, hA, hB] at h
      | some mB =>
        cases hC : pyMax (st.map (fun e => e.query.length)) with
        | none => simp [inferShapes, hA, hB, hC] at h
        | some mC =>
          simp only [inferShapes, hA, hB, hC, Option.some.injEq, Prod.mk.injEq] at h
          obtain ⟨h1, h2, h3⟩ := h
          subst h1; subst h2; subst h3
          obtain ⟨hubA, hmemA⟩ := pyMax_spec _ _ hA
          obtain ⟨hubB, hmemB⟩ := pyMax_spec _ _ hB
          obtain ⟨hubC, hmemC⟩ := pyMax_spec _ _ hC
          refine ⟨⟨?_, ?_⟩, ⟨?_, ?_⟩, ⟨?_, ?_⟩⟩
          · intro e he s hs
            exact hubA s.length (List.mem_flatMap.2 ⟨e, he, List.mem_map_of_mem _ hs⟩)
          · rcases List.mem_flatMap.1 hmemA with ⟨e, he, hm⟩
            rcases List.mem_map.1 hm with ⟨s, hs, hl⟩
            exact ⟨e, he, s, hs, hl⟩
          · intro e he
            exact hubB e.story.length (List.mem_map_of_mem _ he)
          · rcases List.mem_map.1 hmemB with ⟨e, he, hl⟩
            exact ⟨e, he, hl⟩
          · intro e he
            exact hubC e.query.length (List.mem_map_of_mem _ he)
          · rcases List.mem_map.1 hmemC with ⟨e, he, hl⟩
            exact ⟨e, he, hl⟩

/-- C5 witness: the theorem applied to a concrete one-example set. -/
theorem infer_shapes_maxima_witness :
    inferShapes [⟨[[1, 2]], [3], 4⟩] = some (2, 1, 1)
    ∧ ([1, 2] : List Nat).length ≤ 2 := by
  refine ⟨by decide, ?_⟩
  exact (infer_shapes_maxima.2 [⟨[[1, 2]], [3], 4⟩] 2 1 1 (by decide)).1.1
    ⟨[[1, 2]], [3], 4⟩ (by simp) [1, 2] (by simp)

-- § Helper lemma: the padded example -----------------------------------------

theorem padExample_eq (sm tm qm : Nat) (e : EncodedExample)
    (h1 : ∀ s ∈ e.story, s.length ≤ sm) (h2 : e.story.length ≤ tm)
    (h3 : e.query.length ≤ qm) :
    padExample sm tm qm e = some ⟨e.story.map (padSentence sm) ++
        List.replicate (tm - e.story.length) (List.replicate sm PAD_ID),
      e.query ++ List.replicate (qm - e.query.length) PAD_ID, e.answer⟩ := by
  have hsent : ∀ s ∈ e.story.map (padSentence sm), s.length = sm := by
    intro s hs
    rcases List.mem_map.1 hs with ⟨s0, hs0, rfl⟩
    simp [padSentence, Nat.add_sub_cancel' (h1 s0 hs0)]
  have hall : (e.story.map (padSentence sm)).all (fun s => s.length == sm) = true := by
    rw [List.all_eq_true]
    intro s hs
    simpa using hsent s hs
  have hlen2 : (e.story.map (padSentence sm) ++
      List.replicate (tm - (e.story.map (padSentence sm)).length)
        (List.replicate sm PAD_ID)).length = tm := by
    simp [Nat.add_sub_cancel' h2]
  have hlen3 : (e.query ++ List.replicate (qm - e.query.length) PAD_ID).length = qm := by
    simp [Nat.add_sub_cancel' h3]
  simp only [padExample]
  rw [if_pos hall, if_pos (by
    rw [Bool.and_eq_true]
    exact ⟨by simpa using hlen2, by simpa using hlen3⟩)]
  simp

-- § C6 -----------------------------------------------------------------------

/-- C6: for an example whose sentences, story, and query are within the
target maxima, padding succeeds and the padded example has exactly
`storyMax` sentences, each of length exactly `sentenceMax`, and a query of
length exactly `queryMax`. -/
theorem pad_shapes (sm tm qm : Nat) (e : EncodedExample)
    (h1 : ∀ s ∈ e.story, s.length ≤ sm) (h2 : e.story.length ≤ tm)
    (h3 : e.query.length ≤ qm) :
    ∃ e', padExample sm tm qm e = some e'
      ∧ e'.story.length = tm ∧ (∀ s ∈ e'.story, s.length = sm)
      ∧ e'.query.length = qm := by
  refine ⟨_, padExample_eq sm tm qm e h1 h2 h3, ?_, ?_, ?_⟩
  · simp [Nat.add_sub_cancel' h2]
  · intro s hs
    rcases List.mem_append.1 hs with hs | hs
    · rcases List.mem_map.1 hs with ⟨s0, hs0, rfl⟩
      simp [padSentence, Nat.add_sub_cancel' (h1 s0 hs0)]
    · rw [List.eq_of_mem_replicate hs]
      simp
  · simp [Nat.add_sub_cancel' h3]

/-- C6 witness: the theorem applied to a concrete example. -/
theorem pad_shapes_witness :
    padExample 3 2 2 ⟨[[1, 2]], [3], 4⟩ = some ⟨[[1, 2, 0], [0, 0, 0]], [3, 0], 4⟩
    ∧ ∃ e', padExample 3 2 2 ⟨[[1, 2]], [3], 4⟩ = some e'
        ∧ e'.story.length = 2 ∧ (∀ s ∈ e'.story, s.length = 3)
        ∧ e'.query.length = 2 := by
  exact ⟨by decide, pad_shapes 3 2 2 ⟨[[1, 2]], [3], 4⟩
    (by intro s hs; simp at hs; simp [hs]) (by simp) (by simp)⟩

-- § C9 -----------------------------------------------------------------------

/-- C9: padding is idempotent — applying `pad` to an example that already
has exactly the target shape returns the example unchanged. -/
theorem pad_idempotent (sm tm qm : Nat) (e : EncodedExample)
    (h1 : ∀ s ∈ e.story, s.length = sm) (h2 : e.story.length = tm)
    (h3 : e.query.length = qm) :
    padExample sm tm qm e = some e := by
  have heq := padExample_eq sm tm qm e (fun s hs => Nat.le_of_eq (h1 s hs))
    (Nat.le_of_eq h2) (Nat.le_of_eq h3)
  rw [heq]
  have hmap : e.story.map (padSentence sm) = e.story := by
    conv_rhs => rw [← List.map_id e.story]
    apply List.map_congr_left
    intro s hs
    simp [padSentence, h1 s hs]
  have hs2 : e.story.map (padSentence sm) ++
      List.replicate (tm - e.story.length) (List.replicate sm PAD_ID) = e.story := by
    rw [hmap, h2]
    simp
  have hq2 : e.query ++ List.replicate (qm - e.query.length) PAD_ID = e.query := by
    rw [h3]
    simp
  rw [hs2, hq2]

/-- C9 witness: the theorem applied to a concrete already-shaped example. -/
theorem pad_idempotent_witness :
    padExample 3 2 2 ⟨[[1, 2, 0], [0, 0, 0]], [3, 0], 4⟩ =
      some ⟨[[1, 2, 0], [0, 0, 0]], [3, 0], 4⟩ :=
  pad_idempotent 3 2 2 ⟨[[1, 2, 0], [0, 0, 0]], [3, 0], 4⟩
    (by intro s hs; simp at hs; rcases hs with h | h <;> simp [h]) (by simp) (by simp)

-- § C10 ----------------------------------------------------------------------

/-- C10: padding never alters existing content — the answer is unchanged,
each original sentence is a prefix of its padded sentence, the original
sentences are the first sentences of the padded story in order, the
original query is a prefix of the padded query, and every appended
element is the pad id 0. -/
theorem pad_frame (sm tm qm : Nat) (e : EncodedExample)
    (h1 : ∀ s ∈ e.story, s.length ≤ sm) (h2 : e.story.length ≤ tm)
    (h3 : e.query.length ≤ qm) :
    ∃ e', padExample sm tm qm e = some e'
      ∧ e'.answer = e.answer
      ∧ (∀ (i : Nat) (s : List Nat), e.story.get? i = some s →
          ∃ s', e'.story.get? i = some s' ∧ s'.take s.length = s
            ∧ s'.drop s.length = List.replicate (sm - s.length) PAD_ID)
      ∧ e'.story.drop e.story.length =
          List.replicate (tm - e.story.length) (List.replicate sm PAD_ID)
      ∧ e'.query.take e.query.length = e.query
      ∧ e'.query.drop e.query.length = List.replicate (qm - e.query.length) PAD_ID := by
  refine ⟨_, padExample_eq sm tm qm e h1 h2 h3, rfl, ?_, ?_, ?_, ?_⟩
  · intro i s hgs
    have hi : i < e.story.length := by
      rcases List.get?_eq_some.1 hgs with ⟨hlt, _⟩
      exact hlt
    have hi2 : i < (e.story.map (padSentence sm)).length := by
      simpa using hi
    refine ⟨padSentence sm s, ?_, ?_, ?_⟩
    · show ((e.story.map (padSentence sm)) ++ _).get? i = _
      rw [List.get?_append hi2, List.get?_map, hgs]
      rfl
    · show (s ++ _).take s.length = s
      exact List.take_left s _
    · show (s ++ _).drop s.length = _
      exact List.drop_left s _
  · show ((e.story.map (padSentence sm)) ++ _).drop e.story.length = _
    have : e.story.length = (e.story.map (padSentence sm)).length := by simp
    rw [this, List.drop_left]
  · exact List.take_left e.query _
  · exact List.drop_left e.query _

/-- C10 witness: the theorem applied to a concrete example. -/
theorem pad_frame_witness :
    padExample 3 2 2 ⟨[[1, 2]], [3], 4⟩ = some ⟨[[1, 2, 0], [0, 0, 0]], [3, 0], 4⟩
    ∧ ∃ e', padExample 3 2 2 ⟨[[1, 2]], [3], 4⟩ = some e' ∧ e'.answer = 4 := by
  refine ⟨by decide, ?_⟩
  obtain ⟨e', hpad, hans, -⟩ := pad_frame 3 2 2 ⟨[[1, 2]], [3], 4⟩
    (by intro s hs; simp at hs; simp [hs]) (by simp) (by simp)
  exact ⟨e', hpad, hans⟩
